import Mathlib

/- Verification development for the seeded graph-matching pipeline of the
repository.  The notebook utilities (`match_ratio`, the shuffle/unshuffle
construction, `add_edge`) are embedded directly from the sources.  The matcher
itself (graspologic's `GraphMatch.fit` together with its linear-assignment and
Frank-Wolfe relaxation internals) is an external library consumed by the
repository; those parts are modelled from the specification, as marked in the
doc comments below.  Real (float) arithmetic is modelled by exact rationals. -/

open Matrix

/-- Modelled from the spec: a `DoublyStochasticMatrix` is an n-by-n real matrix
with non-negative entries, every row sum and column sum equal to 1. -/
def IsDoublyStochastic {n : ℕ} (P : Matrix (Fin n) (Fin n) ℚ) : Prop :=
  (∀ i j, 0 ≤ P i j) ∧ (∀ i, ∑ j, P i j = 1) ∧ (∀ j, ∑ i, P i j = 1)

instance isDoublyStochasticDecidable {n : ℕ} (P : Matrix (Fin n) (Fin n) ℚ) :
    Decidable (IsDoublyStochastic P) := by
  unfold IsDoublyStochastic; infer_instance

/-- Modelled from the spec: the permutation matrix representing a bijection;
each row and column has exactly one entry equal to one. -/
def permMatrix {n : ℕ} (σ : Equiv.Perm (Fin n)) : Matrix (Fin n) (Fin n) ℚ :=
  fun i j => if σ j = i then 1 else 0

/-- Modelled from the spec: the Frank-Wolfe update
`P_{t+1} = P_t + alpha (Q - P_t)` (spec section 4.2, step 5). -/
def fwUpdate {n : ℕ} (P Q : Matrix (Fin n) (Fin n) ℚ) (α : ℚ) :
    Matrix (Fin n) (Fin n) ℚ :=
  P + α • (Q - P)

/-- Modelled from the spec: the relaxed objective
`f(P) = ‖A - P B Pᵀ‖²`, the sum of squared entrywise differences. -/
def relaxedObjective {n : ℕ} (A B P : Matrix (Fin n) (Fin n) ℚ) : ℚ :=
  ∑ i, ∑ j, (A i j - (P * B * Pᵀ) i j) ^ 2

/-- Modelled from the spec: the discrete matching objective of a permutation
vector `p`, the sum of squared adjacency disagreements `Σ (A - P B Pᵀ)²`,
where re-indexing `B` by `p` reads `B (p i) (p j)`. -/
def objectiveValue {n : ℕ} (A B : Matrix (Fin n) (Fin n) ℚ) (p : Fin n → Fin n) : ℚ :=
  ∑ i, ∑ j, (A i j - B (p i) (p j)) ^ 2

lemma permMatrix_doublyStochastic {n : ℕ} (σ : Equiv.Perm (Fin n)) :
    IsDoublyStochastic (permMatrix σ) := by
  refine ⟨fun i j => ?_, fun i => ?_, fun j => ?_⟩
  · unfold permMatrix; split <;> norm_num
  · have h : ∀ j : Fin n, permMatrix σ i j = if j = σ.symm i then (1 : ℚ) else 0 := by
      intro j
      unfold permMatrix
      by_cases hj : σ j = i
      · rw [if_pos hj, if_pos (by rw [← hj, Equiv.symm_apply_apply])]
      · rw [if_neg hj, if_neg (fun hc => hj (by rw [hc, Equiv.apply_symm_apply]))]
    simp [h]
  · have h : ∀ i : Fin n, permMatrix σ i j = if σ j = i then (1 : ℚ) else 0 := fun i => rfl
    simp [h]

lemma fwUpdate_apply {n : ℕ} (P Q : Matrix (Fin n) (Fin n) ℚ) (α : ℚ) (i j : Fin n) :
    fwUpdate P Q α i j = P i j + α * (Q i j - P i j) := by
  simp [fwUpdate, Matrix.add_apply, Matrix.smul_apply, Matrix.sub_apply, smul_eq_mul]

lemma fwUpdate_zero {n : ℕ} (P Q : Matrix (Fin n) (Fin n) ℚ) :
    fwUpdate P Q 0 = P := by
  simp [fwUpdate]

lemma doublyStochastic_fwUpdate {n : ℕ} {P Q : Matrix (Fin n) (Fin n) ℚ} {α : ℚ}
    (hP : IsDoublyStochastic P) (hQ : IsDoublyStochastic Q)
    (h0 : 0 ≤ α) (h1 : α ≤ 1) : IsDoublyStochastic (fwUpdate P Q α) := by
  obtain ⟨hPpos, hProw, hPcol⟩ := hP
  obtain ⟨hQpos, hQrow, hQcol⟩ := hQ
  refine ⟨fun i j => ?_, fun i => ?_, fun j => ?_⟩
  · rw [fwUpdate_apply]
    nlinarith [hPpos i j, hQpos i j]
  · have : ∀ j, fwUpdate P Q α i j = P i j + α * (Q i j - P i j) := fwUpdate_apply P Q α i
    rw [Finset.sum_congr rfl fun j _ => this j, Finset.sum_add_distrib,
      ← Finset.mul_sum, Finset.sum_sub_distrib, hProw, hQrow]
    ring
  · have : ∀ i, fwUpdate P Q α i j = P i j + α * (Q i j - P i j) := fun i => fwUpdate_apply P Q α i j
    rw [Finset.sum_congr rfl fun i _ => this i, Finset.sum_add_distrib,
      ← Finset.mul_sum, Finset.sum_sub_distrib, hPcol, hQcol]
    ring

/-- C4: Double-stochasticity is preserved by the Frank-Wolfe update: for every
doubly stochastic matrix `P`, every permutation matrix `Q = permMatrix σ`, and
every step size `α ∈ [0,1]`, the updated iterate `P + α (Q - P)` is doubly
stochastic; hence every iterate of a trajectory of such updates starting from a
doubly stochastic matrix is doubly stochastic. -/
theorem C4_fwUpdate_doublyStochastic :
    (∀ (n : ℕ) (P : Matrix (Fin n) (Fin n) ℚ) (σ : Equiv.Perm (Fin n)) (α : ℚ),
      IsDoublyStochastic P → 0 ≤ α → α ≤ 1 →
      IsDoublyStochastic (fwUpdate P (permMatrix σ) α)) ∧
    (∀ (n : ℕ) (Ps : ℕ → Matrix (Fin n) (Fin n) ℚ),
      IsDoublyStochastic (Ps 0) →
      (∀ t, ∃ (σ : Equiv.Perm (Fin n)) (α : ℚ),
        0 ≤ α ∧ α ≤ 1 ∧ Ps (t + 1) = fwUpdate (Ps t) (permMatrix σ) α) →
      ∀ t, IsDoublyStochastic (Ps t)) := by
  constructor
  · intro n P σ α hP h0 h1
    exact doublyStochastic_fwUpdate hP (permMatrix_doublyStochastic σ) h0 h1
  · intro n Ps h0 hstep t
    induction t with
    | zero => exact h0
    | succ t ih =>
      obtain ⟨σ, α, ha, hb, heq⟩ := hstep t
      rw [heq]
      exact doublyStochastic_fwUpdate ih (permMatrix_doublyStochastic σ) ha hb

theorem C4_witness :
    IsDoublyStochastic
      (fwUpdate !![(1 : ℚ)] (permMatrix 1) (1 / 2)) :=
  C4_fwUpdate_doublyStochastic.1 1 !![(1 : ℚ)] 1 (1 / 2)
    (by
      refine ⟨fun i j => ?_, fun i => ?_, fun j => ?_⟩
      · fin_cases i <;> fin_cases j <;> norm_num
      · fin_cases i <;> simp [Fin.sum_univ_succ]
      · fin_cases j <;> simp [Fin.sum_univ_succ])
    (by norm_num) (by norm_num)

/-- Modelled from the spec: one Frank-Wolfe iteration of the relaxation solver
(spec section 4.2, steps 3-5): some permutation matrix `Q` is taken as the
descent direction, and the step size `α ∈ [0,1]` is optimal, i.e. it minimizes
the univariate restriction of the relaxed objective along the segment from
`P` toward `Q` over `[0,1]`; the next iterate is `P + α (Q - P)`. -/
def FWStepRel {n : ℕ} (A B P P' : Matrix (Fin n) (Fin n) ℚ) : Prop :=
  ∃ (σ : Equiv.Perm (Fin n)) (α : ℚ),
    0 ≤ α ∧ α ≤ 1 ∧
    (∀ β, 0 ≤ β → β ≤ 1 →
      relaxedObjective A B (fwUpdate P (permMatrix σ) α) ≤
      relaxedObjective A B (fwUpdate P (permMatrix σ) β)) ∧
    P' = fwUpdate P (permMatrix σ) α

/-- C5: Monotone descent of the relaxed objective: within a restart, every
Frank-Wolfe iteration with an optimal convex-combination step size satisfies
`f(P_{t+1}) ≤ f(P_t)` for the relaxed objective `f(P) = ‖A - P B Pᵀ‖²`,
because the step `β = 0` (staying at `P_t`) is always admissible. -/
theorem C5_relaxedObjective_descent {n : ℕ}
    {A B P P' : Matrix (Fin n) (Fin n) ℚ} (h : FWStepRel A B P P') :
    relaxedObjective A B P' ≤ relaxedObjective A B P := by
  obtain ⟨σ, α, h0, h1, hmin, hP'⟩ := h
  have h2 := hmin 0 le_rfl zero_le_one
  rw [fwUpdate_zero] at h2
  rw [hP']
  exact h2

theorem C5_witness :
    relaxedObjective (0 : Matrix (Fin 1) (Fin 1) ℚ) 0
        (fwUpdate !![(1 : ℚ)] (permMatrix 1) 0) ≤
      relaxedObjective (0 : Matrix (Fin 1) (Fin 1) ℚ) 0 !![(1 : ℚ)] :=
  C5_relaxedObjective_descent
    ⟨1, 0, le_rfl, zero_le_one,
      by intro β _ _; simp [relaxedObjective, Matrix.mul_zero, Matrix.zero_mul], rfl⟩

/-- The `match_ratio` computation of the source (graph-matching-vertex.py,
lines 349 and 373): `1 - count_nonzero(abs(perm_inds - truth)) / n_verts`,
where `count_nonzero` counts the entries of the vector that are nonzero. -/
def matchRatioVal (n : ℕ) (p g : Fin n → ℤ) : ℚ :=
  1 - ((Finset.univ.filter fun i => |p i - g i| ≠ 0).card : ℚ) / n

/-- C8: Match-ratio correctness: for vectors `p` and `g` of common length
`n > 0`, the expression `1 - count_nonzero(|p - g|)/n` equals exactly the
fraction of indices where `p` and `g` agree, and lies in `[0, 1]`. -/
theorem C8_matchRatioVal_correct {n : ℕ} (p g : Fin n → ℤ) (hn : 0 < n) :
    matchRatioVal n p g = ((Finset.univ.filter fun i => p i = g i).card : ℚ) / n ∧
    0 ≤ matchRatioVal n p g ∧ matchRatioVal n p g ≤ 1 := by
  have hfilter : (Finset.univ.filter fun i : Fin n => |p i - g i| ≠ 0) =
      (Finset.univ.filter fun i : Fin n => ¬ p i = g i) := by
    apply Finset.filter_congr
    intro i _
    simp [sub_eq_zero]
  have hcard : (Finset.univ.filter fun i : Fin n => p i = g i).card +
      (Finset.univ.filter fun i : Fin n => ¬ p i = g i).card = n := by
    rw [Finset.filter_card_add_filter_neg_card_eq_card]
    simp
  have hn0 : (0 : ℚ) < n := by exact_mod_cast hn
  have hn' : (n : ℚ) ≠ 0 := ne_of_gt hn0
  have hle : (Finset.univ.filter fun i : Fin n => ¬ p i = g i).card ≤ n := by
    calc (Finset.univ.filter fun i : Fin n => ¬ p i = g i).card
        ≤ (Finset.univ : Finset (Fin n)).card := Finset.card_filter_le _ _
      _ = n := by simp
  have hcardQ : ((Finset.univ.filter fun i : Fin n => p i = g i).card : ℚ) +
      ((Finset.univ.filter fun i : Fin n => ¬ p i = g i).card : ℚ) = n := by
    exact_mod_cast hcard
  refine ⟨?_, ?_, ?_⟩
  · unfold matchRatioVal
    rw [hfilter]
    field_simp
    linarith
  · have h1 : ((Finset.univ.filter fun i : Fin n => |p i - g i| ≠ 0).card : ℚ) / n ≤ 1 := by
      rw [div_le_one hn0, hfilter]
      exact_mod_cast hle
    unfold matchRatioVal
    linarith
  · have h2 : 0 ≤ ((Finset.univ.filter fun i : Fin n => |p i - g i| ≠ 0).card : ℚ) / n := by
      positivity
    unfold matchRatioVal
    linarith

theorem C8_witness :
    matchRatioVal 3 (![0, 2, 1] : Fin 3 → ℤ) ![0, 1, 2] =
      ((Finset.univ.filter fun i => (![0, 2, 1] : Fin 3 → ℤ) i = ![0, 1, 2] i).card : ℚ) / 3 ∧
    0 ≤ matchRatioVal 3 (![0, 2, 1] : Fin 3 → ℤ) ![0, 1, 2] ∧
    matchRatioVal 3 (![0, 2, 1] : Fin 3 → ℤ) ![0, 1, 2] ≤ 1 :=
  C8_matchRatioVal_correct ![0, 2, 1] ![0, 1, 2] (by norm_num)

/-- The `np.ix_` re-indexing used throughout the source:
`B = A[np.ix_(s, s)]` means `B[i, j] = A[s i, s j]`
(graph-matching-vertex.py, lines 251, 324, 342, 366). -/
def npShuffle {n : ℕ} (M : Matrix (Fin n) (Fin n) ℚ) (s : Fin n → Fin n) :
    Matrix (Fin n) (Fin n) ℚ :=
  fun i j => M (s i) (s j)

/-- The unshuffle construction of the source (graph-matching-vertex.py, lines
325-326): `node_unshuffle_input = np.array(range(n_verts))` followed by the
scatter write `node_unshuffle_input[node_shuffle_input] = np.array(range(n_verts))`,
i.e. starting from the identity vector, the entry at position `s i` is
overwritten with `i` for every `i` in order. -/
def nodeUnshuffle {n : ℕ} (s : Fin n → Fin n) : Fin n → Fin n :=
  (List.finRange n).foldl (fun u i => Function.update u (s i) i) id

lemma foldl_update_not_mem {n : ℕ} (s : Fin n → Fin n) (x : Fin n) :
    ∀ (l : List (Fin n)) (b : Fin n → Fin n), (∀ k ∈ l, s k ≠ x) →
      (l.foldl (fun u i => Function.update u (s i) i) b) x = b x
  | [], _, _ => rfl
  | a :: t, b, h => by
    rw [List.foldl_cons,
      foldl_update_not_mem s x t _ (fun k hk => h k (List.mem_cons_of_mem a hk))]
    exact Function.update_noteq (fun hc => h a (List.mem_cons_self a t) hc.symm) a b

lemma nodeUnshuffle_apply {n : ℕ} {s : Fin n → Fin n} (hs : Function.Injective s)
    (i : Fin n) : nodeUnshuffle s (s i) = i := by
  have main : ∀ (l : List (Fin n)) (b : Fin n → Fin n), l.Nodup → i ∈ l →
      (l.foldl (fun u k => Function.update u (s k) k) b) (s i) = i := by
    intro l
    induction l with
    | nil => intro b _ h; exact absurd h (List.not_mem_nil i)
    | cons a t ih =>
      intro b hnd hm
      rw [List.foldl_cons]
      rcases List.mem_cons.1 hm with rfl | hmem
      · rw [foldl_update_not_mem s (s i) t _ ?_]
        · exact Function.update_same (s i) i b
        · intro k hk hc
          exact (List.nodup_cons.1 hnd).1 (by rw [← hs hc]; exact hk)
      · exact ih _ (List.nodup_cons.1 hnd).2 hmem
  exact main (List.finRange n) id (List.nodup_finRange n) (List.mem_finRange i)

lemma nodeUnshuffle_eq_symm {n : ℕ} (σ : Equiv.Perm (Fin n)) :
    nodeUnshuffle ⇑σ = ⇑σ.symm := by
  funext y
  have h := nodeUnshuffle_apply σ.injective (σ.symm y)
  rwa [Equiv.apply_symm_apply] at h

/-- C9: Shuffle/unshuffle round trip: for every permutation `σ` of `{0..n-1}`,
the vector `u` built by the source's scatter write `u[σ[i]] = i` is the inverse
permutation of `σ`; re-indexing the shuffled matrix `M[σ, σ]` by `u` recovers
`M` exactly; and the recovered matrix has zero disagreement with `M`, so `u` is
the optimal ground-truth unshuffling. -/
theorem C9_unshuffle_roundtrip {n : ℕ} (σ : Equiv.Perm (Fin n))
    (M : Matrix (Fin n) (Fin n) ℚ) :
    nodeUnshuffle ⇑σ ∘ ⇑σ = id ∧ ⇑σ ∘ nodeUnshuffle ⇑σ = id ∧
    npShuffle (npShuffle M ⇑σ) (nodeUnshuffle ⇑σ) = M ∧
    objectiveValue M (npShuffle M ⇑σ) (nodeUnshuffle ⇑σ) = 0 := by
  have hu := nodeUnshuffle_eq_symm σ
  refine ⟨?_, ?_, ?_, ?_⟩
  · funext i
    simp [hu]
  · funext i
    simp [hu]
  · ext i j
    simp [npShuffle, hu]
  · simp [objectiveValue, npShuffle, hu]

/-- `add_edge` from the source (spectral-embedding.py, lines 123-130): given an
undirected graph's adjacency matrix, sets `A[i, j] = 1` and `A[j, i] = 1`. -/
def addEdge {n : ℕ} (A : Matrix (Fin n) (Fin n) ℚ) (e : Fin n × Fin n) :
    Matrix (Fin n) (Fin n) ℚ :=
  fun a b => if (a = e.1 ∧ b = e.2) ∨ (a = e.2 ∧ b = e.1) then 1 else A a b

/-- The 6-node two-triangle adjacency matrix built in the source
(spectral-embedding.py, lines 132-138) by repeated `add_edge` calls over
`combinations([0,1,2], 2)` and `combinations([3,4,5], 2)`, starting from
`np.zeros((6, 6))`. -/
def twoTriangles : Matrix (Fin 6) (Fin 6) ℚ :=
  [((0 : Fin 6), (1 : Fin 6)), (0, 2), (1, 2), (3, 4), (3, 5), (4, 5)].foldl addEdge 0

/-- C10: `add_edge` sets both `A[i,j]` and `A[j,i]` to 1 and preserves
symmetry; consequently the 6-node two-triangle adjacency matrix built from a
zero matrix by repeated `add_edge` calls is symmetric with all-zero diagonal. -/
theorem C10_addEdge_symm :
    (∀ (n : ℕ) (A : Matrix (Fin n) (Fin n) ℚ) (e : Fin n × Fin n), A.IsSymm →
      addEdge A e e.1 e.2 = 1 ∧ addEdge A e e.2 e.1 = 1 ∧ (addEdge A e).IsSymm) ∧
    twoTriangles.IsSymm ∧ ∀ i, twoTriangles i i = 0 := by
  refine ⟨?_, ?_, ?_⟩
  · intro n A e hA
    have hA' : ∀ i j, A j i = A i j := fun i j => congrFun (congrFun hA i) j
    refine ⟨by simp [addEdge], by simp [addEdge], ?_⟩
    show (addEdge A e)ᵀ = addEdge A e
    ext i j
    rw [Matrix.transpose_apply]
    unfold addEdge
    by_cases h1 : (i = e.1 ∧ j = e.2) ∨ (i = e.2 ∧ j = e.1)
    · rw [if_pos (by tauto), if_pos h1]
    · rw [if_neg (by tauto), if_neg h1]
      exact hA' i j
  · show twoTrianglesᵀ = twoTriangles
    ext i j
    rw [Matrix.transpose_apply]
    fin_cases i <;> fin_cases j <;> rfl
  · intro i
    fin_cases i <;> rfl

theorem C10_witness :
    addEdge (0 : Matrix (Fin 6) (Fin 6) ℚ) (0, 1) (0, 1).1 (0, 1).2 = 1 ∧
    addEdge (0 : Matrix (Fin 6) (Fin 6) ℚ) (0, 1) (0, 1).2 (0, 1).1 = 1 ∧
    (addEdge (0 : Matrix (Fin 6) (Fin 6) ℚ) (0, 1)).IsSymm :=
  C10_addEdge_symm.1 6 0 (0, 1) Matrix.transpose_zero

/-- A computable enumeration of all permutations of `Fin n`, by position of
`0` and recursion on the remaining indices. -/
def allPerms : (n : ℕ) → List (Equiv.Perm (Fin n))
  | 0 => [1]
  | n + 1 =>
    (List.finRange (n + 1)).flatMap fun i =>
      (allPerms n).map fun σ => Equiv.Perm.decomposeFin.symm (i, σ)

/-- Modelled from the spec: the list of permutations compatible with a
fixed-assignment mask (section 4.1): every seeded row is forced to its seeded
column. -/
def seedRespecting (n : ℕ) (sf : List (Fin n × Fin n)) : List (Equiv.Perm (Fin n)) :=
  (allPerms n).filter fun σ => decide (∀ p ∈ sf, σ p.1 = p.2)

/-- Modelled from the spec: a permutation extending a seed pairing, used as the
deterministic fallback assignment; for a valid (doubly injective) seed list it
maps every seeded row to its seeded column. -/
def extendSeeds {n : ℕ} : List (Fin n × Fin n) → Equiv.Perm (Fin n)
  | [] => 1
  | p :: t => Equiv.swap p.2 (extendSeeds t p.1) * extendSeeds t

/-- Modelled from the spec (section 4.1): the total cost `Σ C[i, P(i)]` of an
assignment. -/
def lapCost {n : ℕ} (C : Matrix (Fin n) (Fin n) ℚ) (σ : Equiv.Perm (Fin n)) : ℚ :=
  ∑ i, C i (σ i)

/-- Modelled from the spec: the Linear Assignment Solver contract (section
4.1): among the permutations respecting the fixed seed assignments, return one
minimizing the total cost `Σ C[i, P(i)]` (first minimizer in a fixed
enumeration, a deterministic tie-break). -/
def lapSolve {n : ℕ} (C : Matrix (Fin n) (Fin n) ℚ) (sf : List (Fin n × Fin n)) :
    Equiv.Perm (Fin n) :=
  ((seedRespecting n sf).argmin (lapCost C)).getD (extendSeeds sf)

/-- Modelled from the spec (section 4.2, step 2): the gradient of the quadratic
expansion of the relaxed objective, an affine (here linear) function of `P`
computed by matrix products of `A`, `B`, and `P`. -/
def gradientMat {n : ℕ} (A B P : Matrix (Fin n) (Fin n) ℚ) : Matrix (Fin n) (Fin n) ℚ :=
  (-2 : ℚ) • (A * P * Bᵀ + Aᵀ * P * B)

/-- Modelled from the spec: the bilinear form `tr(Aᵀ X B Yᵀ)` appearing in the
quadratic expansion of the relaxed objective. -/
def trForm {n : ℕ} (A B X Y : Matrix (Fin n) (Fin n) ℚ) : ℚ :=
  ∑ i, ∑ j, A i j * (X * B * Yᵀ) i j

/-- Clamp a rational to the unit interval `[0, 1]`. -/
def clampUnit (x : ℚ) : ℚ := max 0 (min 1 x)

/-- Modelled from the spec (section 4.2, step 4): closed-form optimal convex
combination step size, minimizing the univariate quadratic
`q(α) = q₀ + a₁ α + a₂ α²` obtained from the quadratic expansion of the
objective along the segment from `P` toward `Q` over `[0, 1]` (clamped to the
boundary when the unconstrained minimizer falls outside, endpoints compared
when the quadratic coefficient is not positive). -/
def stepSize {n : ℕ} (A B P Q : Matrix (Fin n) (Fin n) ℚ) : ℚ :=
  let D := Q - P
  let a2 := -2 * trForm A B D D
  let a1 := -2 * (trForm A B D P + trForm A B P D)
  if 0 < a2 then clampUnit (-a1 / (2 * a2))
  else if a1 + a2 < 0 then 1 else 0

/-- Squared Frobenius norm of the difference of two iterates, used by the
convergence test (the tolerance is interpreted on the squared norm, staying
within exact rational arithmetic). -/
def normSqDiff {n : ℕ} (P Q : Matrix (Fin n) (Fin n) ℚ) : ℚ :=
  ∑ i, ∑ j, (P i j - Q i j) ^ 2

/-- Modelled from the spec (section 4.2): the Frank-Wolfe loop of the
Doubly-Stochastic Relaxation Solver: direction finding by the Linear
Assignment Solver on the gradient with seeds fixed, closed-form step size,
convex-combination update, and a convergence test against the tolerance or the
iteration budget; returns the last iterate with iteration count and a
convergence flag (non-convergence is not an error). -/
def relaxLoop {n : ℕ} (A B : Matrix (Fin n) (Fin n) ℚ) (sf : List (Fin n × Fin n))
    (tol : ℚ) : ℕ → Matrix (Fin n) (Fin n) ℚ → Matrix (Fin n) (Fin n) ℚ × ℕ × Bool
  | 0, P => (P, 0, false)
  | fuel + 1, P =>
    let Q := permMatrix (lapSolve (gradientMat A B P) sf)
    let P' := fwUpdate P Q (stepSize A B P Q)
    if normSqDiff P' P < tol then (P', 1, true)
    else
      let r := relaxLoop A B sf tol fuel P'
      (r.1, r.2.1 + 1, r.2.2)

/-- Modelled from the spec (section 4.2, step 1): the barycenter
initialization: seeded entries pinned to their one-hot seed vectors, the
non-seeded sub-block uniform. -/
def barycenterSeeded {n : ℕ} (sf : List (Fin n × Fin n)) : Matrix (Fin n) (Fin n) ℚ :=
  fun i j =>
    if (i, j) ∈ sf then 1
    else if (∃ p ∈ sf, p.1 = i) ∨ (∃ p ∈ sf, p.2 = j) then 0
    else 1 / ((n : ℚ) - sf.length)

/-- Modelled from the spec: decode a sampled `np.random.permutation` output (a
list of naturals) into a permutation, via the seed-extension machinery. -/
def permOfList (n : ℕ) (l : List ℕ) : Equiv.Perm (Fin n) :=
  extendSeeds ((List.finRange n).filterMap fun i =>
    if h : l.getD i.val 0 < n then some (i, (⟨l.getD i.val 0, h⟩ : Fin n)) else none)

/-- Modelled from the spec (section 4.2, step 1): the two initialization
choices. -/
inductive InitKind
  | barycenter
  | random

/-- Modelled from the spec (section 6): the recognized configuration options.
The ambient randomness that `random_seed` seeds (the `np.random.permutation`
draws of the source) is modelled explicitly by the sampled permutation lists
`initPerms`, one entry per restart. -/
structure MatchConfig where
  restarts : ℕ
  maxIterations : ℕ
  tolerance : ℚ
  initKind : InitKind
  initPerms : List (List ℕ)
  randomSeed : Option ℕ

/-- Modelled from the spec (section 4.2, step 1): the initial doubly
stochastic matrix of restart `r`: the seeded barycenter, or a random
permutation matrix averaged with it. -/
def initMatrix {n : ℕ} (cfg : MatchConfig) (sf : List (Fin n × Fin n)) (r : ℕ) :
    Matrix (Fin n) (Fin n) ℚ :=
  match cfg.initKind with
  | InitKind.barycenter => barycenterSeeded sf
  | InitKind.random =>
    ((1 : ℚ) / 2) • (permMatrix (permOfList n (cfg.initPerms.getD r [])) + barycenterSeeded sf)

/-- Modelled from the spec: one restart's candidate result. -/
structure Cand (n : ℕ) where
  index : ℕ
  perm : Equiv.Perm (Fin n)
  objective : ℚ
  iterations : ℕ
  converged : Bool

/-- Modelled from the spec (sections 3 and 4.3): the `MatchResult` record: the
winning permutation vector, its objective value, and iteration/convergence
metadata. -/
structure MatchResult where
  permInds : List ℕ
  objective : ℚ
  iterations : ℕ
  converged : Bool
deriving DecidableEq

/-- Modelled from the spec (sections 4.3 and 5): restart selection: the
candidate of minimal objective value, ties broken by the earliest restart
index (a lexicographic minimum), independent of the order candidates arrive
in. -/
def selectBest {α : Type} (obj : α → ℚ) (idx : α → ℕ) (l : List α) : Option α :=
  l.argmin fun c => toLex (obj c, idx c)

/-- The permutation vector (the `perm_inds_` array) listing of a permutation. -/
def permIndsOf {n : ℕ} (σ : Equiv.Perm (Fin n)) : List ℕ :=
  (List.finRange n).map fun i => (σ i : ℕ)

/-- Modelled from the spec (section 4.3): one restart: initialize, run the
relaxation solver, then discretize the final doubly stochastic iterate by a
final linear assignment with cost equal to its negation, seeds fixed. -/
def runRestart {n : ℕ} (A B : Matrix (Fin n) (Fin n) ℚ) (sf : List (Fin n × Fin n))
    (cfg : MatchConfig) (r : ℕ) : Cand n :=
  let res := relaxLoop A B sf cfg.tolerance cfg.maxIterations (initMatrix cfg sf r)
  let σ := lapSolve (-res.1) sf
  ⟨r, σ, objectiveValue A B σ, res.2.1, res.2.2⟩

/-- Modelled from the spec (section 4.3): the Matching Orchestrator on
validated, padded inputs: run at least one restart, select the best candidate
by objective value with ties broken by the earliest restart index, and return
its `MatchResult`. -/
def matchCore {n : ℕ} (A B : Matrix (Fin n) (Fin n) ℚ) (sf : List (Fin n × Fin n))
    (cfg : MatchConfig) : MatchResult :=
  let cands := (List.range (max 1 cfg.restarts)).map (runRestart A B sf cfg)
  match selectBest Cand.objective Cand.index cands with
  | some c => ⟨permIndsOf c.perm, c.objective, c.iterations, c.converged⟩
  | none => ⟨permIndsOf (extendSeeds sf), objectiveValue A B ⇑(extendSeeds sf), 0, false⟩

/-- A raw input matrix is square when every row has as many entries as there
are rows. -/
abbrev isSquare (raw : List (List ℚ)) : Prop :=
  ∀ row ∈ raw, row.length = raw.length

/-- Reading a raw matrix at a common padded size `N`: missing entries (from
padding the smaller matrix) read as zero-weight dummy entries. -/
def toMat (N : ℕ) (raw : List (List ℚ)) : Matrix (Fin N) (Fin N) ℚ :=
  fun i j => (raw.getD i.val []).getD j.val 0

/-- Modelled from the spec (section 4.3): seed validation: indices in bounds of
their respective matrices and injectivity on both sides. -/
abbrev seedsValid (nA nB : ℕ) (seeds : List (ℕ × ℕ)) : Prop :=
  (∀ p ∈ seeds, p.1 < nA ∧ p.2 < nB) ∧
  (seeds.map Prod.fst).Nodup ∧ (seeds.map Prod.snd).Nodup

/-- Convert in-bound seed pairs to `Fin`-indexed pairs (out-of-bound pairs
cannot occur on validated input). -/
def seedsToFin (N : ℕ) (seeds : List (ℕ × ℕ)) : List (Fin N × Fin N) :=
  seeds.filterMap fun p =>
    if h : p.1 < N ∧ p.2 < N then some ((⟨p.1, h.1⟩ : Fin N), (⟨p.2, h.2⟩ : Fin N)) else none

/-- Modelled from the spec (section 7): the error taxonomy of `match`. -/
inductive MatchError
  | invalidInput
  | invalidSeeds
deriving DecidableEq

/-- Valid input: both raw matrices square, seed pairing in bounds and
injective on both sides.  (NaN and infinities are unrepresentable in the
exact-rational model.) -/
abbrev validInput (rawA rawB : List (List ℚ)) (seeds : List (ℕ × ℕ)) : Prop :=
  isSquare rawA ∧ isSquare rawB ∧ seedsValid rawA.length rawB.length seeds

/-- Modelled from the spec (sections 4.3, 6, 7): the public `match` operation:
eager validation (squareness, then seed bounds and injectivity) before any
numeric work; differing sizes padded to a common `N` with zero-weight dummy
entries; then the orchestrator runs on the validated data.  Non-convergence is
reported as metadata on the result, never as an error. -/
def matchGraphs (rawA rawB : List (List ℚ)) (seeds : List (ℕ × ℕ))
    (cfg : MatchConfig) : Except MatchError MatchResult :=
  if ¬ (isSquare rawA ∧ isSquare rawB) then Except.error MatchError.invalidInput
  else if ¬ seedsValid rawA.length rawB.length seeds then Except.error MatchError.invalidSeeds
  else
    Except.ok (matchCore (toMat (max rawA.length rawB.length) rawA)
      (toMat (max rawA.length rawB.length) rawB)
      (seedsToFin (max rawA.length rawB.length) seeds) cfg)

lemma extendSeeds_fix {n : ℕ} :
    ∀ (l : List (Fin n × Fin n)), (l.map Prod.fst).Nodup → (l.map Prod.snd).Nodup →
      ∀ p ∈ l, extendSeeds l p.1 = p.2
  | [], _, _, p, hp => absurd hp (List.not_mem_nil p)
  | q :: t, hf, hs, p, hp => by
    have hf' : (t.map Prod.fst).Nodup := (List.nodup_cons.1 hf).2
    have hs' : (t.map Prod.snd).Nodup := (List.nodup_cons.1 hs).2
    have ih := extendSeeds_fix t hf' hs'
    rcases List.mem_cons.1 hp with rfl | hmem
    · show (Equiv.swap p.2 (extendSeeds t p.1) * extendSeeds t) p.1 = p.2
      rw [Equiv.Perm.mul_apply, Equiv.swap_apply_right]
    · show (Equiv.swap q.2 (extendSeeds t q.1) * extendSeeds t) p.1 = p.2
      rw [Equiv.Perm.mul_apply, ih p hmem]
      apply Equiv.swap_apply_of_ne_of_ne
      · intro hc
        exact (List.nodup_cons.1 hs).1 (hc ▸ List.mem_map_of_mem Prod.snd hmem)
      · intro hc
        have h1 : extendSeeds t p.1 = extendSeeds t q.1 := by rw [ih p hmem, hc]
        have h2 : p.1 = q.1 := (extendSeeds t).injective h1
        exact (List.nodup_cons.1 hf).1 (h2 ▸ List.mem_map_of_mem Prod.fst hmem)

lemma seedRespecting_prop {n : ℕ} {sf : List (Fin n × Fin n)} {σ : Equiv.Perm (Fin n)}
    (h : σ ∈ seedRespecting n sf) : ∀ p ∈ sf, σ p.1 = p.2 :=
  of_decide_eq_true (List.mem_filter.1 h).2

lemma lapSolve_respects {n : ℕ} (C : Matrix (Fin n) (Fin n) ℚ) (sf : List (Fin n × Fin n))
    (hf : (sf.map Prod.fst).Nodup) (hs : (sf.map Prod.snd).Nodup) :
    ∀ p ∈ sf, lapSolve C sf p.1 = p.2 := by
  unfold lapSolve
  cases harg : (seedRespecting n sf).argmin (lapCost C) with
  | none => simpa using extendSeeds_fix sf hf hs
  | some σ =>
    simp only [Option.getD_some]
    exact seedRespecting_prop (List.argmin_mem (by rw [Option.mem_def, harg]))

lemma runRestart_perm {n : ℕ} (A B : Matrix (Fin n) (Fin n) ℚ) (sf : List (Fin n × Fin n))
    (cfg : MatchConfig) (r : ℕ) :
    (runRestart A B sf cfg r).perm =
      lapSolve (-(relaxLoop A B sf cfg.tolerance cfg.maxIterations (initMatrix cfg sf r)).1) sf :=
  rfl

lemma matchCore_permInds_spec {n : ℕ} (A B : Matrix (Fin n) (Fin n) ℚ)
    (sf : List (Fin n × Fin n)) (cfg : MatchConfig) :
    ∃ σ : Equiv.Perm (Fin n), (matchCore A B sf cfg).permInds = permIndsOf σ ∧
      ((sf.map Prod.fst).Nodup → (sf.map Prod.snd).Nodup → ∀ p ∈ sf, σ p.1 = p.2) := by
  cases hsel : selectBest Cand.objective Cand.index
      ((List.range (max 1 cfg.restarts)).map (runRestart A B sf cfg)) with
  | none =>
    refine ⟨extendSeeds sf, ?_, fun hf hs => extendSeeds_fix sf hf hs⟩
    simp [matchCore, hsel]
  | some c =>
    have hc : c ∈ (List.range (max 1 cfg.restarts)).map (runRestart A B sf cfg) :=
      List.argmin_mem (m := c) (by rw [Option.mem_def, ← hsel]; rfl)
    obtain ⟨r, _, hrc⟩ := List.mem_map.1 hc
    refine ⟨c.perm, ?_, ?_⟩
    · simp [matchCore, hsel]
    · intro hf hs p hp
      have hcp : c.perm = lapSolve (-(relaxLoop A B sf cfg.tolerance cfg.maxIterations
          (initMatrix cfg sf r)).1) sf := by
        rw [← hrc]; exact runRestart_perm A B sf cfg r
      rw [hcp]
      exact lapSolve_respects _ sf hf hs p hp

lemma permIndsOf_length {n : ℕ} (σ : Equiv.Perm (Fin n)) : (permIndsOf σ).length = n := by
  simp [permIndsOf]

lemma permIndsOf_nodup {n : ℕ} (σ : Equiv.Perm (Fin n)) : (permIndsOf σ).Nodup :=
  (List.nodup_finRange n).map (Fin.val_injective.comp σ.injective)

lemma permIndsOf_mem {n : ℕ} (σ : Equiv.Perm (Fin n)) {k : ℕ} (h : k < n) :
    k ∈ permIndsOf σ :=
  List.mem_map.2 ⟨σ.symm ⟨k, h⟩, List.mem_finRange _, by simp⟩

lemma permIndsOf_not_mem {n : ℕ} (σ : Equiv.Perm (Fin n)) {k : ℕ} (h : n ≤ k) :
    k ∉ permIndsOf σ := by
  intro hm
  obtain ⟨i, _, hi⟩ := List.mem_map.1 hm
  exact absurd ((hi : ((σ i : Fin n) : ℕ) = k) ▸ (σ i).isLt) (by omega)

/-- C2: Permutation validity: whenever `matchGraphs` returns a result, its
`permInds` vector is a bijection of `{0..N-1}` (where `N` is the common padded
size): it has length `N`, every index below `N` appears exactly once, and no
other value appears. -/
theorem C2_perm_bijection (rawA rawB : List (List ℚ)) (seeds : List (ℕ × ℕ))
    (cfg : MatchConfig) (r : MatchResult)
    (hok : matchGraphs rawA rawB seeds cfg = Except.ok r) :
    r.permInds.length = max rawA.length rawB.length ∧
    (∀ k, k < max rawA.length rawB.length → r.permInds.count k = 1) ∧
    (∀ k, max rawA.length rawB.length ≤ k → r.permInds.count k = 0) := by
  unfold matchGraphs at hok
  by_cases h1 : isSquare rawA ∧ isSquare rawB
  case neg => rw [if_pos h1] at hok; exact absurd hok (by simp)
  by_cases h2 : seedsValid rawA.length rawB.length seeds
  case neg =>
    rw [if_neg (not_not_intro h1), if_pos h2] at hok
    exact absurd hok (by simp)
  · rw [if_neg (not_not_intro h1), if_neg (not_not_intro h2)] at hok
    have hr := Except.ok.inj hok
    subst hr
    obtain ⟨σ, hperm, -⟩ := matchCore_permInds_spec
      (toMat (max rawA.length rawB.length) rawA) (toMat (max rawA.length rawB.length) rawB)
      (seedsToFin (max rawA.length rawB.length) seeds) cfg
    rw [hperm]
    exact ⟨permIndsOf_length σ,
      fun k hk => List.count_eq_one_of_mem (permIndsOf_nodup σ) (permIndsOf_mem σ hk),
      fun k hk => List.count_eq_zero_of_not_mem (permIndsOf_not_mem σ hk)⟩

def cfgBase : MatchConfig := ⟨1, 0, 0, InitKind.barycenter, [], none⟩

def resW2 : MatchResult :=
  matchCore (toMat 1 [[(0 : ℚ)]]) (toMat 1 [[(0 : ℚ)]]) (seedsToFin 1 []) cfgBase

theorem C2_witness :
    resW2.permInds.length = 1 ∧ resW2.permInds.count 0 = 1 ∧ resW2.permInds.count 5 = 0 :=
  have h := C2_perm_bijection [[(0 : ℚ)]] [[(0 : ℚ)]] [] cfgBase resW2 rfl
  ⟨h.1, h.2.1 0 (by norm_num), h.2.2 5 (by norm_num)⟩

lemma seedsToFin_mem {N : ℕ} {seeds : List (ℕ × ℕ)} {i j : ℕ} (hi : i < N) (hj : j < N)
    (hm : (i, j) ∈ seeds) :
    ((⟨i, hi⟩ : Fin N), (⟨j, hj⟩ : Fin N)) ∈ seedsToFin N seeds := by
  apply List.mem_filterMap.2
  exact ⟨(i, j), hm, by rw [dif_pos ⟨hi, hj⟩]⟩

lemma seedsToFin_val {N : ℕ} :
    ∀ (seeds : List (ℕ × ℕ)), (∀ p ∈ seeds, p.1 < N ∧ p.2 < N) →
      (seedsToFin N seeds).map (fun q => (q.1.val, q.2.val)) = seeds
  | [], _ => rfl
  | p :: t, h => by
    have hp := h p (List.mem_cons_self p t)
    have ih := seedsToFin_val t fun q hq => h q (List.mem_cons_of_mem p hq)
    show ((p :: t).filterMap _).map _ = p :: t
    rw [List.filterMap_cons, dif_pos hp, List.map_cons]
    exact congrArg₂ List.cons rfl ih

lemma seedsToFin_nodup_fst {N : ℕ} {seeds : List (ℕ × ℕ)}
    (h : ∀ p ∈ seeds, p.1 < N ∧ p.2 < N) (hf : (seeds.map Prod.fst).Nodup) :
    ((seedsToFin N seeds).map Prod.fst).Nodup := by
  apply List.Nodup.of_map Fin.val
  have h2 := congrArg (List.map Prod.fst) (seedsToFin_val seeds h)
  rw [List.map_map] at h2
  rw [List.map_map]
  rw [← h2] at hf
  exact hf

lemma seedsToFin_nodup_snd {N : ℕ} {seeds : List (ℕ × ℕ)}
    (h : ∀ p ∈ seeds, p.1 < N ∧ p.2 < N) (hs : (seeds.map Prod.snd).Nodup) :
    ((seedsToFin N seeds).map Prod.snd).Nodup := by
  apply List.Nodup.of_map Fin.val
  have h2 := congrArg (List.map Prod.snd) (seedsToFin_val seeds h)
  rw [List.map_map] at h2
  rw [List.map_map]
  rw [← h2] at hs
  exact hs

lemma finRange_getElem? {n : ℕ} {i : ℕ} (h : i < n) :
    (List.finRange n)[i]? = some (⟨i, h⟩ : Fin n) := by
  rw [List.getElem?_eq_getElem (by simpa using h)]
  congr 1
  have hg := List.get_finRange (n := n) (i := i) (by simpa using h)
  simp only [List.get_eq_getElem] at hg
  exact hg

/-- C3: Seed fixation: for every valid run of `matchGraphs` (the returned
value is `ok`, so the seed set passed validation) and every seed pair `(i, j)`
in the seed list, the returned permutation vector maps `i` to `j` exactly, for
every configuration (hence for every restart count and every initialization
choice). -/
theorem C3_seed_fixation (rawA rawB : List (List ℚ)) (seeds : List (ℕ × ℕ))
    (cfg : MatchConfig) (r : MatchResult) (i j : ℕ)
    (hok : matchGraphs rawA rawB seeds cfg = Except.ok r) (hmem : (i, j) ∈ seeds) :
    r.permInds[i]? = some j := by
  unfold matchGraphs at hok
  by_cases h1 : isSquare rawA ∧ isSquare rawB
  case neg => rw [if_pos h1] at hok; exact absurd hok (by simp)
  by_cases h2 : seedsValid rawA.length rawB.length seeds
  case neg =>
    rw [if_neg (not_not_intro h1), if_pos h2] at hok
    exact absurd hok (by simp)
  · rw [if_neg (not_not_intro h1), if_neg (not_not_intro h2)] at hok
    have hr := Except.ok.inj hok
    subst hr
    have hbounds : ∀ p ∈ seeds, p.1 < max rawA.length rawB.length ∧
        p.2 < max rawA.length rawB.length := fun p hp =>
      ⟨lt_of_lt_of_le (h2.1 p hp).1 (le_max_left _ _),
       lt_of_lt_of_le (h2.1 p hp).2 (le_max_right _ _)⟩
    have hiN : i < max rawA.length rawB.length := (hbounds (i, j) hmem).1
    have hjN : j < max rawA.length rawB.length := (hbounds (i, j) hmem).2
    obtain ⟨σ, hperm, hfix⟩ := matchCore_permInds_spec
      (toMat (max rawA.length rawB.length) rawA) (toMat (max rawA.length rawB.length) rawB)
      (seedsToFin (max rawA.length rawB.length) seeds) cfg
    have hσ : σ ⟨i, hiN⟩ = ⟨j, hjN⟩ :=
      hfix (seedsToFin_nodup_fst hbounds h2.2.1) (seedsToFin_nodup_snd hbounds h2.2.2)
        (⟨i, hiN⟩, ⟨j, hjN⟩) (seedsToFin_mem hiN hjN hmem)
    rw [hperm]
    unfold permIndsOf
    rw [List.getElem?_map, finRange_getElem? hiN]
    simp [hσ]

def resW3 : MatchResult :=
  matchCore (toMat 2 [[(0 : ℚ), 0], [0, 0]]) (toMat 2 [[(0 : ℚ), 0], [0, 0]])
    (seedsToFin 2 [(0, 1)]) cfgBase

theorem C3_witness : resW3.permInds[0]? = some 1 :=
  C3_seed_fixation [[(0 : ℚ), 0], [0, 0]] [[(0 : ℚ), 0], [0, 0]] [(0, 1)] cfgBase resW3 0 1
    rfl (by decide)

/-- C6: Eager validation with atomic failure: `matchGraphs` returns an error
exactly when validation fails (non-square matrix, out-of-bounds seed index, or
a non-injective seed set; NaN and infinities cannot arise in exact rational
arithmetic); on invalid input the outcome is independent of the whole
algorithm configuration (no numeric work contributes, no partial computation);
and on valid input it always returns `ok` — in particular non-convergence is
reported only through the `converged`/`iterations` metadata, never as an
error. -/
theorem C6_eager_validation (rawA rawB : List (List ℚ)) (seeds : List (ℕ × ℕ))
    (cfg : MatchConfig) :
    ((∃ e, matchGraphs rawA rawB seeds cfg = Except.error e) ↔
      ¬ validInput rawA rawB seeds) ∧
    (¬ validInput rawA rawB seeds →
      ∀ cfg', matchGraphs rawA rawB seeds cfg = matchGraphs rawA rawB seeds cfg') ∧
    (validInput rawA rawB seeds →
      ∃ res, matchGraphs rawA rawB seeds cfg = Except.ok res) := by
  unfold matchGraphs
  by_cases h1 : isSquare rawA ∧ isSquare rawB
  case neg =>
    rw [if_pos h1]
    refine ⟨⟨fun _ hval => h1 ⟨hval.1, hval.2.1⟩, fun _ => ⟨MatchError.invalidInput, rfl⟩⟩,
      fun _ cfg' => ?_, fun hval => absurd ⟨hval.1, hval.2.1⟩ h1⟩
    rw [if_pos h1]
  by_cases h2 : seedsValid rawA.length rawB.length seeds
  case neg =>
    rw [if_neg (not_not_intro h1), if_pos h2]
    refine ⟨⟨fun _ hval => h2 hval.2.2, fun _ => ⟨MatchError.invalidSeeds, rfl⟩⟩,
      fun _ cfg' => ?_, fun hval => absurd hval.2.2 h2⟩
    rw [if_neg (not_not_intro h1), if_pos h2]
  · rw [if_neg (not_not_intro h1), if_neg (not_not_intro h2)]
    refine ⟨⟨fun he => absurd he.choose_spec (by simp), fun hval => ?_⟩,
      fun hval _ => ?_, fun _ => ⟨_, rfl⟩⟩
    · exact absurd ⟨h1.1, h1.2, h2⟩ hval
    · exact absurd ⟨h1.1, h1.2, h2⟩ hval

theorem C6_witness :
    matchGraphs [[(0 : ℚ)]] [[(0 : ℚ)]] [(0, 0), (0, 0)] cfgBase =
      matchGraphs [[(0 : ℚ)]] [[(0 : ℚ)]] [(0, 0), (0, 0)]
        ⟨2, 7, 1, InitKind.random, [[0]], some 5⟩ :=
  (C6_eager_validation [[(0 : ℚ)]] [[(0 : ℚ)]] [(0, 0), (0, 0)] cfgBase).2.1
    (by decide) ⟨2, 7, 1, InitKind.random, [[0]], some 5⟩

/-- C7: Determinism of restart selection: the model is a pure function of its
inputs and of the random draws determined by the random seed, so two runs on
identical arguments coincide definitionally; the substantive content is that
the reduction over restart candidates is deterministic regardless of their
completion order: `selectBest` (compare by objective value, break ties by the
earlier restart index) returns the same winner on any reordering of the
candidate list, provided restart indices are distinct. -/
theorem C7_deterministic_selection {α : Type} [DecidableEq α] (obj : α → ℚ) (idx : α → ℕ)
    (l l' : List α) (hperm : l.Perm l') (hidx : (l.map idx).Nodup) :
    selectBest obj idx l = selectBest obj idx l' := by
  unfold selectBest
  cases h : l.argmin fun c => toLex (obj c, idx c) with
  | none =>
    rw [List.argmin_eq_none] at h
    subst h
    rw [List.Perm.eq_nil hperm.symm, List.argmin_nil]
  | some m =>
    obtain ⟨hm, hmin, -⟩ := List.argmin_eq_some_iff.1 h
    rw [eq_comm]
    apply List.argmin_eq_some_iff.2
    refine ⟨hperm.subset hm, fun a ha => hmin a (hperm.symm.subset ha), fun a ha hle => ?_⟩
    have haL : a ∈ l := hperm.symm.subset ha
    have heq : (fun c => toLex (obj c, idx c)) a = (fun c => toLex (obj c, idx c)) m :=
      le_antisymm hle (hmin a haL)
    have hpair : (obj a, idx a) = (obj m, idx m) := toLex.injective heq
    have hidxam : idx a = idx m := congrArg Prod.snd hpair
    have ham : a = m := List.inj_on_of_nodup_map hidx haL hm hidxam
    rw [ham]

theorem C7_witness :
    selectBest (fun c : ℕ × ℕ => (c.2 : ℚ)) (fun c : ℕ × ℕ => c.1) [(0, 1), (1, 2)] =
      selectBest (fun c : ℕ × ℕ => (c.2 : ℚ)) (fun c : ℕ × ℕ => c.1) [(1, 2), (0, 1)] :=
  C7_deterministic_selection (fun c : ℕ × ℕ => (c.2 : ℚ)) (fun c : ℕ × ℕ => c.1)
    [(0, 1), (1, 2)] [(1, 2), (0, 1)] (by decide) (by decide)
